import Mathlib

/-!
A verification development for `md_to_html.py`, a five-pass Markdown-to-HTML
converter.  Each Python `re.sub` call is embedded as a left-to-right scanner
(`scan`) driven by a per-position matcher (`try…`) that mirrors the specific
regular expression's leftmost, non-overlapping, greedy match semantics.
Strings are modelled by their character lists; the scanner carries a fuel
argument equal to the input length, which is always sufficient because every
match consumes at least one character.
-/

namespace MdToHtml

/-- Python's `\s` character class for `str` patterns (whitespace). -/
def pySpace (c : Char) : Bool :=
  c == ' ' || c == '\t' || c == '\n' || c == '\x0b' || c == '\x0c' || c == '\r' ||
  c == '\x1c' || c == '\x1d' || c == '\x1e' || c == '\x1f' || c == '\x85' || c == '\xa0' ||
  c == '\u1680' || (c ≥ '\u2000' && c ≤ '\u200a') || c == '\u2028' || c == '\u2029' ||
  c == '\u202f' || c == '\u205f' || c == '\u3000'

/-- The Unicode Nd (decimal digit) code point ranges.  Python's `\d` on
`str` patterns matches exactly the characters of category Nd (here per
Unicode 14.0.0, the table used by the CPython 3.11 `re` module). -/
def ndRanges : List (Nat × Nat) :=
  [(0x30, 0x39), (0x660, 0x669), (0x6f0, 0x6f9), (0x7c0, 0x7c9),
   (0x966, 0x96f), (0x9e6, 0x9ef), (0xa66, 0xa6f), (0xae6, 0xaef),
   (0xb66, 0xb6f), (0xbe6, 0xbef), (0xc66, 0xc6f), (0xce6, 0xcef),
   (0xd66, 0xd6f), (0xde6, 0xdef), (0xe50, 0xe59), (0xed0, 0xed9),
   (0xf20, 0xf29), (0x1040, 0x1049), (0x1090, 0x1099), (0x17e0, 0x17e9),
   (0x1810, 0x1819), (0x1946, 0x194f), (0x19d0, 0x19d9), (0x1a80, 0x1a89),
   (0x1a90, 0x1a99), (0x1b50, 0x1b59), (0x1bb0, 0x1bb9), (0x1c40, 0x1c49),
   (0x1c50, 0x1c59), (0xa620, 0xa629), (0xa8d0, 0xa8d9), (0xa900, 0xa909),
   (0xa9d0, 0xa9d9), (0xa9f0, 0xa9f9), (0xaa50, 0xaa59), (0xabf0, 0xabf9),
   (0xff10, 0xff19), (0x104a0, 0x104a9), (0x10d30, 0x10d39), (0x11066, 0x1106f),
   (0x110f0, 0x110f9), (0x11136, 0x1113f), (0x111d0, 0x111d9), (0x112f0, 0x112f9),
   (0x11450, 0x11459), (0x114d0, 0x114d9), (0x11650, 0x11659), (0x116c0, 0x116c9),
   (0x11730, 0x11739), (0x118e0, 0x118e9), (0x11950, 0x11959), (0x11c50, 0x11c59),
   (0x11d50, 0x11d59), (0x11da0, 0x11da9), (0x16a60, 0x16a69), (0x16ac0, 0x16ac9),
   (0x16b50, 0x16b59), (0x1d7ce, 0x1d7ff), (0x1e140, 0x1e149), (0x1e2f0, 0x1e2f9),
   (0x1e950, 0x1e959), (0x1fbf0, 0x1fbf9)]

/-- Python's `\d` character class for `str` patterns: any Unicode decimal
digit (category Nd), not only ASCII `0`-`9`. -/
def pyDigit (c : Char) : Bool :=
  ndRanges.any fun p => p.1 ≤ c.toNat && c.toNat ≤ p.2

/-- The `[ \t]` character class used by the header pattern. -/
def isHTab (c : Char) : Bool :=
  c == ' ' || c == '\t'

/-- Longest run of non-newline characters: what `(.*)` or `([^\n]+)` can span
from a position (Python `.` does not match `\n` without DOTALL). -/
def lineOf (l : List Char) : List Char :=
  l.takeWhile (fun c => c != '\n')

/-- Index of the last `'\n'` inside the leading `\s*` run of `l`, if any.
This is where the greedy `\s*` of `\n\s*\n` makes the second `\n` land. -/
def lastNlInRun : List Char → Option Nat
  | [] => none
  | c :: cs =>
    if pySpace c then
      match lastNlInRun cs with
      | some k => some (k + 1)
      | none => if c == '\n' then some 0 else none
    else none

/-- Largest index `j` such that `tag` occurs in `l` starting at `j`.
This is where a greedy `(.*)` followed by the literal `tag` backtracks to. -/
def lastTagIdx (tag : List Char) : List Char → Option Nat
  | [] => none
  | c :: cs =>
    match lastTagIdx tag cs with
    | some k => some (k + 1)
    | none => if tag.isPrefixOf (c :: cs) then some 0 else none

/-- One `re.sub` pass: at each position try the matcher; on a match
`some (r, k)` emit the replacement `r` and resume after the match
(the match spans the head character plus `k` further characters);
otherwise copy one character.  `fuel` bounds the recursion; with
`fuel = length` it never runs out. -/
def scan (t : List Char → Option (List Char × Nat)) : Nat → List Char → List Char
  | 0, l => l
  | _ + 1, [] => []
  | f + 1, c :: cs =>
    match t (c :: cs) with
    | some (r, k) => r ++ scan t f (cs.drop k)
    | none => c :: scan t f cs

/-- Run a substitution pass over a whole buffer. -/
def runScan (t : List Char → Option (List Char × Nat)) (l : List Char) : List Char :=
  scan t l.length l

/-- Does the matcher fire at some position of `l`?  (Ignoring overlap:
used as the decidable "the pattern occurs somewhere" predicate.) -/
def anyFire (t : List Char → Option (List Char × Nat)) : List Char → Bool
  | [] => false
  | c :: cs => (t (c :: cs)).isSome || anyFire t cs

/-- Matcher for `\n\s*\n` (replaced by `</p>\n<p>` in `paragraphs`). -/
def tryParas (l : List Char) : Option (List Char × Nat) :=
  match l with
  | '\n' :: cs =>
    match lastNlInRun cs with
    | some j => some ("</p>\n<p>".data, j + 1)
    | none => none
  | _ => none

/-- Matcher for `(-|\+|\*) (.*)` with replacement `<ul><li>\g<2></li></ul>`. -/
def tryUlWrap (l : List Char) : Option (List Char × Nat) :=
  match l with
  | c :: ' ' :: rest =>
    if c == '-' || c == '+' || c == '*' then
      some ("<ul><li>".data ++ lineOf rest ++ "</li></ul>".data, 1 + (lineOf rest).length)
    else none
  | _ => none

/-- Matcher for `</ul>\n(.*)<ul>` with replacement `\n` (the captured
group is not used by the replacement). -/
def tryMergeUl (l : List Char) : Option (List Char × Nat) :=
  if "</ul>\n".data.isPrefixOf l then
    match lastTagIdx "<ul>".data (lineOf (l.drop 6)) with
    | some j => some (['\n'], 9 + j)
    | none => none
  else none

/-- Matcher for `(\d+\.) (.*)` with replacement `<ol><li>\g<2></li></ol>`.
Python `\d` matches any Unicode decimal digit (`pyDigit`). -/
def tryOlWrap (l : List Char) : Option (List Char × Nat) :=
  match l with
  | c :: _ =>
    if pyDigit c then
      let d := l.takeWhile pyDigit
      match l.drop d.length with
      | '.' :: ' ' :: rest =>
        some ("<ol><li>".data ++ lineOf rest ++ "</li></ol>".data,
              d.length + 1 + (lineOf rest).length)
      | _ => none
    else none
  | [] => none

/-- Matcher for `</ol>\n(.*)<ol>` with replacement `\n`. -/
def tryMergeOl (l : List Char) : Option (List Char × Nat) :=
  if "</ol>\n".data.isPrefixOf l then
    match lastTagIdx "<ol>".data (lineOf (l.drop 6)) with
    | some j => some (['\n'], 9 + j)
    | none => none
  else none

/-- Matcher for `\*\*([^\n]+)\*\*` with replacement `<strong>\g<1></strong>`.
The greedy inner group makes the closing `**` the last pair on the line. -/
def tryBold (l : List Char) : Option (List Char × Nat) :=
  match l with
  | '*' :: '*' :: cs =>
    match lastTagIdx ['*', '*'] (lineOf cs) with
    | some j =>
      if 1 ≤ j then some ("<strong>".data ++ (lineOf cs).take j ++ "</strong>".data, j + 3)
      else none
    | none => none
  | _ => none

/-- Matcher for `\*([^\n]+)\*` with replacement `<em>\g<1></em>`. -/
def tryItal (l : List Char) : Option (List Char × Nat) :=
  match l with
  | '*' :: cs =>
    match lastTagIdx ['*'] (lineOf cs) with
    | some j =>
      if 1 ≤ j then some ("<em>".data ++ (lineOf cs).take j ++ "</em>".data, j + 1)
      else none
    | none => none
  | _ => none

/-- Opening tag `<hN>` as a character list (N is a single digit 1–6). -/
def hOpen (i : Nat) : List Char :=
  ['<', 'h', Char.ofNat (48 + i), '>']

/-- Closing tag `</hN>` as a character list. -/
def hClose (i : Nat) : List Char :=
  ['<', '/', 'h', Char.ofNat (48 + i), '>']

/-- The part of the header pattern after the `(^|\n)` anchor:
`(#…#)[ \t]+([^\n]+)` with `i` hashes.  Returns the captured group 3 and
the number of characters the match consumes.  The greedy `[ \t]+` takes
the whole horizontal-whitespace run unless the line would then end, in
which case it backtracks by one character so that `[^\n]+` is nonempty. -/
def tryHdrCore (i : Nat) (l : List Char) : Option (List Char × Nat) :=
  if (List.replicate i '#').isPrefixOf l then
    let rest := l.drop i
    let w := rest.takeWhile isHTab
    if w.length = 0 then none
    else
      let g := lineOf (rest.drop w.length)
      if g.length ≠ 0 then some (g, i + w.length + g.length)
      else if 2 ≤ w.length then some (w.drop (w.length - 1), i + w.length)
      else none
  else none

/-- Matcher for `(^|\n)(#…#)[ \t]+([^\n]+)` at a `\n`-anchored position,
with replacement `\g<1><hi>\g<3></hi>`. -/
def tryHdrNl (i : Nat) (l : List Char) : Option (List Char × Nat) :=
  match l with
  | '\n' :: cs =>
    match tryHdrCore i cs with
    | some (g, k) => some ('\n' :: (hOpen i ++ g ++ hClose i), k)
    | none => none
  | _ => none

/-- One level of the header loop: the `^`-anchored position is tried at the
start of the buffer, then the scanner handles all `\n`-anchored positions. -/
def headersPass (i : Nat) (l : List Char) : List Char :=
  match tryHdrCore i l with
  | some (g, k) => hOpen i ++ g ++ hClose i ++ runScan (tryHdrNl i) (l.drop k)
  | none => runScan (tryHdrNl i) l

/-- Stage `paragraphs`: `re.sub(r'\n\s*\n', '</p>\n<p>', corpus)` then wrap in `<p>…</p>`. -/
def paragraphs (s : String) : String :=
  "<p>" ++ String.mk (runScan tryParas s.data) ++ "</p>"

/-- Intermediate `ul_wrapped` of `lists`. -/
def ul_wrapped (s : String) : String :=
  String.mk (runScan tryUlWrap s.data)

/-- Intermediate `ul_finished` of `lists` (the `</ul>…<ul>` merge sub-pass). -/
def ul_finished (s : String) : String :=
  String.mk (runScan tryMergeUl s.data)

/-- Intermediate `ol_wrapped` of `lists`. -/
def ol_wrapped (s : String) : String :=
  String.mk (runScan tryOlWrap s.data)

/-- Final `ol_ul_finished` of `lists` (the `</ol>…<ol>` merge sub-pass). -/
def ol_ul_finished (s : String) : String :=
  String.mk (runScan tryMergeOl s.data)

/-- Stage `lists`: wrap unordered items, merge adjacent `</ul>`/`<ul>`, then the
same for ordered items. -/
def lists (s : String) : String :=
  ol_ul_finished (ol_wrapped (ul_finished (ul_wrapped s)))

/-- Stage `italics`: `re.sub(r'\*([^\n]+)\*', '<em>\g<1></em>', corpus)`. -/
def italics (s : String) : String :=
  String.mk (runScan tryItal s.data)

/-- Stage `bold`: `re.sub(r'\*\*([^\n]+)\*\*', '<strong>\g<1></strong>', corpus)`. -/
def bold (s : String) : String :=
  String.mk (runScan tryBold s.data)

/-- Stage `headers`: the `for i in range(6, 0, -1)` substitution loop. -/
def headers (s : String) : String :=
  String.mk (headersPass 1 (headersPass 2 (headersPass 3 (headersPass 4
    (headersPass 5 (headersPass 6 s.data))))))

/-- Orchestrator `html`: the full conversion pipeline. -/
def html (s : String) : String :=
  "<article>" ++ paragraphs (lists (italics (bold (headers s)))) ++ "</article>"

/-- Decidable "the buffer contains a blank separator `\n\s*\n`". -/
def hasBlankSep (s : String) : Bool :=
  anyFire tryParas s.data

/-! ### Basic list facts -/

theorem mem_of_isPrefixOf : ∀ {p l : List Char}, p.isPrefixOf l = true → ∀ a ∈ p, a ∈ l
  | [], _, _, a, ha => absurd ha (List.not_mem_nil a)
  | _ :: _, [], h, _, _ => by simp [List.isPrefixOf] at h
  | p :: ps, c :: cs, h, a, ha => by
    simp only [List.isPrefixOf, Bool.and_eq_true, beq_iff_eq] at h
    rcases List.mem_cons.mp ha with rfl | ha'
    · exact h.1 ▸ List.mem_cons_self _ _
    · exact List.mem_cons_of_mem _ (mem_of_isPrefixOf h.2 a ha')

theorem length_le_of_isPrefixOf : ∀ {p l : List Char}, p.isPrefixOf l = true →
    p.length ≤ l.length
  | [], _, _ => Nat.zero_le _
  | _ :: _, [], h => by simp [List.isPrefixOf] at h
  | p :: ps, c :: cs, h => by
    simp only [List.isPrefixOf, Bool.and_eq_true] at h
    simpa using length_le_of_isPrefixOf h.2

theorem isPrefixOf_append_self : ∀ (p z : List Char), p.isPrefixOf (p ++ z) = true
  | [], _ => by simp [List.isPrefixOf]
  | c :: p', z => by simp [List.isPrefixOf, isPrefixOf_append_self p' z]

theorem mem_takeWhileB {q : Char → Bool} : ∀ {l : List Char} {c : Char},
    c ∈ l.takeWhile q → q c = true := by
  intro l
  induction l with
  | nil => intro c h; simp [List.takeWhile] at h
  | cons d l ih =>
    intro c h
    by_cases hq : q d = true
    · rw [List.takeWhile_cons, if_pos hq] at h
      rcases List.mem_cons.mp h with rfl | h'
      · exact hq
      · exact ih h'
    · rw [List.takeWhile_cons, if_neg hq] at h
      exact absurd h (List.not_mem_nil c)

theorem takeWhileB_eq_self {q : Char → Bool} : ∀ {l : List Char},
    (∀ c ∈ l, q c = true) → l.takeWhile q = l := by
  intro l
  induction l with
  | nil => intro _; rfl
  | cons d l ih =>
    intro h
    rw [List.takeWhile_cons, if_pos (h d (List.mem_cons_self _ _))]
    exact congrArg (d :: ·) (ih fun c hc => h c (List.mem_cons_of_mem _ hc))

theorem lineOf_eq_self {l : List Char} (h : '\n' ∉ l) : lineOf l = l :=
  takeWhileB_eq_self fun c hc => by
    simp only [bne_iff_ne, ne_eq]
    exact fun he => h (he ▸ hc)

theorem mem_lineOf_ne_nl {l : List Char} {c : Char} (h : c ∈ lineOf l) : c ≠ '\n' := by
  have := mem_takeWhileB h
  simpa using this

/-! ### Facts about `lastNlInRun` -/

theorem lastNlInRun_eq_none : ∀ {l : List Char}, '\n' ∉ l → lastNlInRun l = none := by
  intro l
  induction l with
  | nil => intro _; rfl
  | cons c cs ih =>
    intro h
    have hc : c ≠ '\n' := fun he => h (he ▸ List.mem_cons_self _ _)
    have hcs : '\n' ∉ cs := fun hm => h (List.mem_cons_of_mem _ hm)
    by_cases hs : pySpace c = true
    · simp [lastNlInRun, hs, ih hcs, hc]
    · simp [lastNlInRun, hs]

theorem lastNlInRun_spaces : ∀ {u b : List Char}, (∀ c ∈ u, pySpace c = true) →
    '\n' ∉ b → lastNlInRun (u ++ '\n' :: b) = some u.length := by
  intro u
  induction u with
  | nil =>
    intro b _ hb
    simp [lastNlInRun, pySpace, lastNlInRun_eq_none hb]
  | cons c u' ih =>
    intro b hu hb
    have hc : pySpace c = true := hu c (List.mem_cons_self _ _)
    have hu' : ∀ x ∈ u', pySpace x = true := fun x hx => hu x (List.mem_cons_of_mem _ hx)
    simp [lastNlInRun, hc, ih hu' hb]

/-! ### Facts about `lastTagIdx` -/

theorem lastTagIdx_none {c : Char} {tag' l : List Char} (h : c ∉ l) :
    lastTagIdx (c :: tag') l = none := by
  induction l with
  | nil => rfl
  | cons d ds ih =>
    have hd : c ≠ d := fun he => h (he ▸ List.mem_cons_self _ _)
    have hds : c ∉ ds := fun hm => h (List.mem_cons_of_mem _ hm)
    have hp : (c :: tag').isPrefixOf (d :: ds) = false := by
      simp [List.isPrefixOf, hd]
    simp [lastTagIdx, ih hds, hp]

theorem lastTagIdx_short : ∀ {tag l : List Char}, l.length < tag.length →
    lastTagIdx tag l = none := by
  intro tag l
  induction l with
  | nil => intro _; rfl
  | cons d ds ih =>
    intro h
    have hds : ds.length < tag.length := Nat.lt_of_le_of_lt (Nat.le_succ _) h
    have hp : tag.isPrefixOf (d :: ds) = false := by
      by_contra hb
      have := length_le_of_isPrefixOf (Bool.of_not_eq_false hb)
      omega
    simp [lastTagIdx, ih hds, hp]

theorem lastTagIdx_append_tag (tag : List Char) (htag : tag ≠ []) :
    ∀ X : List Char, lastTagIdx tag (X ++ tag) = some X.length := by
  intro X
  induction X with
  | nil =>
    rcases tag with _ | ⟨c, cs⟩
    · exact absurd rfl htag
    · have hd : lastTagIdx (c :: cs) cs = none :=
        lastTagIdx_short (by simp)
      have hp : (c :: cs).isPrefixOf (c :: cs) = true := by
        have h0 := isPrefixOf_append_self (c :: cs) []
        rw [List.append_nil] at h0
        exact h0
      simp [lastTagIdx, hd, hp]
  | cons d X' ih =>
    simp [lastTagIdx, ih]

theorem lastTagIdx_single {c : Char} : ∀ {x r : List Char}, c ∉ x → c ∉ r →
    lastTagIdx [c] (x ++ c :: r) = some x.length := by
  intro x
  induction x with
  | nil =>
    intro r _ hr
    simp [lastTagIdx, lastTagIdx_none hr, List.isPrefixOf]
  | cons d x' ih =>
    intro r hx hr
    have hx' : c ∉ x' := fun hm => hx (List.mem_cons_of_mem _ hm)
    simp [lastTagIdx, ih hx' hr]

/-! ### Generic facts about the scanner -/

theorem scan_zero (t : List Char → Option (List Char × Nat)) (l : List Char) :
    scan t 0 l = l := rfl

theorem scan_nil (t : List Char → Option (List Char × Nat)) (f : Nat) :
    scan t f [] = [] := by cases f <;> rfl

theorem scan_congr (t : List Char → Option (List Char × Nat)) :
    ∀ f l, l.length ≤ f → scan t f l = runScan t l := by
  intro f
  induction f using Nat.strong_induction_on with
  | _ f ih =>
    intro l hl
    match f, l with
    | 0, l =>
      have : l = [] := List.eq_nil_of_length_eq_zero (Nat.le_zero.mp hl)
      subst this; rfl
    | f + 1, [] => simp [scan, runScan]
    | f + 1, c :: cs =>
      have hcs : cs.length ≤ f := by simpa using hl
      show scan t (f + 1) (c :: cs) = scan t (c :: cs).length (c :: cs)
      rw [List.length_cons]
      cases h : t (c :: cs) with
      | some rk =>
        obtain ⟨r, k⟩ := rk
        have hdk : (cs.drop k).length ≤ cs.length := by
          rw [List.length_drop]; omega
        simp only [scan, h]
        rw [ih f (Nat.lt_succ_self f) _ (Nat.le_trans hdk hcs),
          ih cs.length (Nat.lt_succ_of_le hcs) _ hdk]
      | none =>
        simp only [scan, h]
        rw [ih f (Nat.lt_succ_self f) _ hcs,
          ih cs.length (Nat.lt_succ_of_le hcs) _ (Nat.le_refl _)]

theorem runScan_nil (t : List Char → Option (List Char × Nat)) : runScan t [] = [] := rfl

theorem runScan_cons_none {t : List Char → Option (List Char × Nat)} {c : Char}
    {cs : List Char} (h : t (c :: cs) = none) :
    runScan t (c :: cs) = c :: runScan t cs := by
  show scan t (c :: cs).length (c :: cs) = _
  rw [List.length_cons]
  simp only [scan, h]
  rfl

theorem runScan_cons_some {t : List Char → Option (List Char × Nat)} {c : Char}
    {cs r : List Char} {k : Nat} (h : t (c :: cs) = some (r, k)) :
    runScan t (c :: cs) = r ++ runScan t (cs.drop k) := by
  show scan t (c :: cs).length (c :: cs) = _
  rw [List.length_cons]
  simp only [scan, h]
  rw [scan_congr t cs.length _ (by rw [List.length_drop]; omega)]

theorem runScan_append_triggers {t : List Char → Option (List Char × Nat)} :
    ∀ (p s : List Char), (∀ c ∈ p, ∀ z, t (c :: z) = none) →
    runScan t (p ++ s) = p ++ runScan t s := by
  intro p
  induction p with
  | nil => intro s _; simp
  | cons c p' ih =>
    intro s H
    rw [List.cons_append,
      runScan_cons_none (H c (List.mem_cons_self _ _) (p' ++ s)),
      ih s fun d hd z => H d (List.mem_cons_of_mem _ hd) z]
    rfl

theorem runScan_id_triggers {t : List Char → Option (List Char × Nat)} {l : List Char}
    (H : ∀ c ∈ l, ∀ z, t (c :: z) = none) : runScan t l = l := by
  have h := runScan_append_triggers l [] H
  rw [List.append_nil, runScan_nil, List.append_nil] at h
  exact h

theorem anyFire_cons_false {t : List Char → Option (List Char × Nat)} {c : Char}
    {cs : List Char} (h : anyFire t (c :: cs) = false) :
    t (c :: cs) = none ∧ anyFire t cs = false := by
  simp only [anyFire, Bool.or_eq_false_iff] at h
  refine ⟨?_, h.2⟩
  cases ho : t (c :: cs) with
  | none => rfl
  | some v => rw [ho] at h; simp at h

theorem anyFire_tail_false {t : List Char → Option (List Char × Nat)} {c : Char}
    {cs : List Char} (h : anyFire t (c :: cs) = false) : anyFire t cs = false :=
  (anyFire_cons_false h).2

theorem anyFire_drop_false {t : List Char → Option (List Char × Nat)} :
    ∀ (k : Nat) {l : List Char}, anyFire t l = false → anyFire t (l.drop k) = false := by
  intro k
  induction k with
  | zero => intro l h; simpa using h
  | succ k ih =>
    intro l h
    cases l with
    | nil => simpa using h
    | cons c cs => exact ih (anyFire_tail_false h)

theorem anyFire_append_none {t : List Char → Option (List Char × Nat)} :
    ∀ (p s : List Char), (∀ c ∈ p, ∀ z, t (c :: z) = none) →
    anyFire t (p ++ s) = anyFire t s := by
  intro p
  induction p with
  | nil => intro s _; rfl
  | cons c p' ih =>
    intro s H
    rw [List.cons_append]
    simp only [anyFire, H c (List.mem_cons_self _ _) (p' ++ s), Option.isSome_none,
      Bool.false_or]
    exact ih s fun d hd z => H d (List.mem_cons_of_mem _ hd) z

theorem anyFire_false_triggers {t : List Char → Option (List Char × Nat)} {l : List Char}
    (H : ∀ c ∈ l, ∀ z, t (c :: z) = none) : anyFire t l = false := by
  have := anyFire_append_none l [] H
  simpa using this

theorem runScan_id_of_anyFire {t : List Char → Option (List Char × Nat)} :
    ∀ {l : List Char}, anyFire t l = false → runScan t l = l := by
  intro l
  induction l with
  | nil => intro _; rfl
  | cons c cs ih =>
    intro h
    obtain ⟨h1, h2⟩ := anyFire_cons_false h
    rw [runScan_cons_none h1, ih h2]

/-! ### Where each matcher cannot fire -/

theorem tryParas_nofire {c : Char} (l : List Char) (h : c ≠ '\n') :
    tryParas (c :: l) = none := by
  unfold tryParas
  split
  · next cs heq =>
    injection heq with h1 _
    exact absurd h1 h
  · rfl

theorem tryBold_nofire {c : Char} (l : List Char) (h : c ≠ '*') :
    tryBold (c :: l) = none := by
  unfold tryBold
  split
  · next cs heq =>
    injection heq with h1 _
    exact absurd h1 h
  · rfl

theorem tryItal_nofire {c : Char} (l : List Char) (h : c ≠ '*') :
    tryItal (c :: l) = none := by
  unfold tryItal
  split
  · next cs heq =>
    injection heq with h1 _
    exact absurd h1 h
  · rfl

theorem tryUlWrap_nofire {c : Char} (l : List Char) (h1 : c ≠ '-') (h2 : c ≠ '+')
    (h3 : c ≠ '*') : tryUlWrap (c :: l) = none := by
  unfold tryUlWrap
  split
  · next c' rest heq =>
    injection heq with h0 _
    subst h0
    simp [h1, h2, h3]
  · rfl

theorem tryOlWrap_nofire {c : Char} (l : List Char) (h : pyDigit c = false) :
    tryOlWrap (c :: l) = none := by
  unfold tryOlWrap
  split
  · next c' rest heq =>
    injection heq with h0 _
    subst h0
    simp [h]
  · next heq => exact absurd heq (by simp)

theorem tryMergeUl_nofire {c : Char} (l : List Char) (h : c ≠ '<') :
    tryMergeUl (c :: l) = none := by
  have hb : ('<' == c) = false := beq_eq_false_iff_ne.mpr (Ne.symm h)
  have hp : ("</ul>\n".data).isPrefixOf (c :: l) = false := by
    have he : "</ul>\n".data = '<' :: "/ul>\n".data := rfl
    rw [he]
    simp [List.isPrefixOf, hb]
  simp [tryMergeUl, hp]

theorem tryMergeOl_nofire {c : Char} (l : List Char) (h : c ≠ '<') :
    tryMergeOl (c :: l) = none := by
  have hb : ('<' == c) = false := beq_eq_false_iff_ne.mpr (Ne.symm h)
  have hp : ("</ol>\n".data).isPrefixOf (c :: l) = false := by
    have he : "</ol>\n".data = '<' :: "/ol>\n".data := rfl
    rw [he]
    simp [List.isPrefixOf, hb]
  simp [tryMergeOl, hp]

theorem tryMergeUl_nofire_nonl {l : List Char} (h : '\n' ∉ l) : tryMergeUl l = none := by
  have hp : ("</ul>\n".data).isPrefixOf l = false := by
    by_contra hb
    exact h (mem_of_isPrefixOf (Bool.of_not_eq_false hb) '\n' (by decide))
  simp [tryMergeUl, hp]

theorem tryMergeOl_nofire_nonl {l : List Char} (h : '\n' ∉ l) : tryMergeOl l = none := by
  have hp : ("</ol>\n".data).isPrefixOf l = false := by
    by_contra hb
    exact h (mem_of_isPrefixOf (Bool.of_not_eq_false hb) '\n' (by decide))
  simp [tryMergeOl, hp]

theorem tryHdrNl_nofire (i : Nat) {c : Char} (l : List Char) (h : c ≠ '\n') :
    tryHdrNl i (c :: l) = none := by
  unfold tryHdrNl
  split
  · next cs heq =>
    injection heq with h1 _
    exact absurd h1 h
  · rfl

theorem tryHdrCore_none_nohash {i : Nat} {l : List Char} (hi : 1 ≤ i) (h : '#' ∉ l) :
    tryHdrCore i l = none := by
  have hp : (List.replicate i '#').isPrefixOf l = false := by
    by_contra hb
    exact h (mem_of_isPrefixOf (Bool.of_not_eq_false hb) '#'
      (List.mem_replicate.mpr ⟨by omega, rfl⟩))
  simp [tryHdrCore, hp]

theorem tryHdrNl_nofire_nohash (i : Nat) {c : Char} (l : List Char) (hi : 1 ≤ i)
    (h : '#' ∉ l) : tryHdrNl i (c :: l) = none := by
  by_cases hc : c = '\n'
  · subst hc
    unfold tryHdrNl
    simp [tryHdrCore_none_nohash hi h]
  · exact tryHdrNl_nofire i l hc

/-! ### String-level helpers -/

theorem strData_append (a b : String) : (a ++ b).data = a.data ++ b.data := by
  cases a; cases b; rfl

theorem strMk_data (s : String) : String.mk s.data = s := by
  cases s; rfl

theorem strExt {a b : String} (h : a.data = b.data) : a = b := by
  cases a; cases b; exact congrArg String.mk h

/-- A line-start (`^` or just-after-`\n`) position where the ordered-item
pattern `(\d+\.) (.*)` fires somewhere after a newline. -/
def olAfterNl : List Char → Bool
  | [] => false
  | '\n' :: cs => (tryOlWrap cs).isSome || olAfterNl cs
  | _ :: cs => olAfterNl cs

/-- Decidable "some line of the buffer starts with digits, a dot and a space". -/
def lineInitialOl (s : String) : Bool :=
  (tryOlWrap s.data).isSome || olAfterNl s.data

/-! ### The doctests of `md_to_html.py`, reproduced by the embedding -/

example : paragraphs "P1\n\nP2\nP2\n    \t   \n\n\n  \t\nP3" =
    "<p>P1</p>\n<p>P2\nP2</p>\n<p>P3</p>" := by decide

example : lists "- i1\n+ i2\n* i3" = "<ul><li>i1</li>\n<li>i2</li>\n<li>i3</li></ul>" := by
  decide

example : lists "2. i1\n69. i2\n1337. i3" =
    "<ol><li>i1</li>\n<li>i2</li>\n<li>i3</li></ol>" := by decide

example : italics "*italic*" = "<em>italic</em>" := by decide

example : bold "**bold**" = "<strong>bold</strong>" := by decide

example : headers "#hello" = "#hello" := by decide

example : headers "# hello" = "<h1>hello</h1>" := by decide

example : headers "###  \t hello" = "<h3>hello</h3>" := by decide

example : headers "######    hello" = "<h6>hello</h6>" := by decide

example : headers "#######\t hello" = "#######\t hello" := by decide

example : html "P1\n\nP2\n- 1\n- 2\nP2\n\nP3" =
    "<article><p>P1</p>\n<p>P2\n<ul><li>1</li>\n<li>2</li></ul>\nP2</p>\n<p>P3</p></article>" := by
  decide

/-! ### C1: the orchestrator applies the five stages in fixed order -/

/-- C1: for every input string, `html` returns the result of applying
headers, bold, italics, lists, paragraphs in that fixed order, wrapped in
`<article>` … `</article>`. -/
theorem html_pipeline_order (s : String) :
    html s = "<article>" ++ paragraphs (lists (italics (bold (headers s)))) ++ "</article>" :=
  rfl

/-! ### C7: every stage is a total function -/

/-- C7: each public stage and the orchestrator is a total function of the
input string: on every input (empty, whitespace-only, malformed markers
included) each one returns some output string.  Totality is by
construction: every matcher and scanner is a structurally recursive
function. -/
theorem all_stages_total (s : String) :
    ∃ t1 t2 t3 t4 t5 t6 : String,
      headers s = t1 ∧ bold s = t2 ∧ italics s = t3 ∧ lists s = t4 ∧
      paragraphs s = t5 ∧ html s = t6 :=
  ⟨_, _, _, _, _, _, rfl, rfl, rfl, rfl, rfl, rfl⟩

/-! ### C10: the empty document -/

/-- C10: converting the empty string yields exactly
`<article><p></p></article>`. -/
theorem html_empty : html "" = "<article><p></p></article>" := by decide

/-! ### Counterexamples -/

/-- C2 fails on the code: the list patterns are not anchored at line starts.
The line "foo - bar" contains the bullet marker only mid-line, yet `lists`
rewrites it. -/
theorem lists_midline_counterexample :
    lists "foo - bar" = "foo <ul><li>bar</li></ul>" ∧
      lists "foo - bar" ≠ "foo - bar" := by decide

/-- C3 fails on the code: the merge replacement is `'\n'` alone, so the
captured run `X` (`"foo"` here) is deleted, not preserved. -/
theorem merge_drops_capture_counterexample :
    ul_finished "</ul>\nfoo<ul>" = "\n" ∧ ul_finished "</ul>\nfoo<ul>" ≠ "\nfoo" := by
  decide

/-- C4 fails on the code: `"a 1. b"` contains none of `#*-+`, no
line-initial digit-dot-space and no blank-line run, yet `convert` does not
return it wrapped verbatim (the unanchored ordered-list pattern fires
mid-line). -/
theorem html_plain_counterexample :
    ('#' ∉ "a 1. b".data ∧ '*' ∉ "a 1. b".data ∧ '-' ∉ "a 1. b".data ∧
        '+' ∉ "a 1. b".data) ∧
      lineInitialOl "a 1. b" = false ∧ hasBlankSep "a 1. b" = false ∧
      html "a 1. b" ≠ "<article><p>a 1. b</p></article>" := by decide

/-- C5 fails on the code: `\s` also matches `'\r'`, so a line consisting of
a carriage return is a blank-separator line and does produce a paragraph
boundary. -/
theorem paragraphs_cr_counterexample :
    paragraphs "a\n\r\nb" = "<p>a</p>\n<p>b</p>" ∧
      paragraphs "a\n\r\nb" ≠ "<p>a\n\r\nb</p>" := by decide

/-- C6 fails on the code: `lists` can introduce a blank separator.  On
`"- a\nfoo<ul>\n"` (which contains none) the merge sub-pass deletes the
line content `foo` and leaves `"<ul><li>a</li>\n\n"`, which contains one. -/
theorem lists_blanksep_counterexample :
    hasBlankSep "- a\nfoo<ul>\n" = false ∧
      lists "- a\nfoo<ul>\n" = "<ul><li>a</li>\n\n" ∧
      hasBlankSep (lists "- a\nfoo<ul>\n") = true := by decide

/-- C8 fails on the code: trailing whitespace of the heading line is kept
(group 3 is greedy `[^\n]+`), so `"# hi "` becomes `"<h1>hi </h1>"`, not
`"<h1>hi</h1>"`. -/
theorem headers_trailing_ws_counterexample :
    headers "# hi " = "<h1>hi </h1>" ∧ headers "# hi " ≠ "<h1>hi</h1>" := by decide

/-- C9 fails on the code for the empty inner text: `[^\n]+` requires a
nonempty span, so `"******"` does not become `"<strong><em></em></strong>"`. -/
theorem triple_star_empty_counterexample :
    italics (bold ("***" ++ "" ++ "***")) = "<strong>**</strong>" ∧
      italics (bold ("***" ++ "" ++ "***")) ≠ "<strong><em>" ++ "" ++ "</em></strong>" := by
  decide

/-! ### Suffix-aware firing lemmas -/

theorem anyFire_false_suffixes {t : List Char → Option (List Char × Nat)} :
    ∀ {l : List Char}, (∀ q, q <:+ l → q ≠ [] → t q = none) → anyFire t l = false := by
  intro l
  induction l with
  | nil => intro _; rfl
  | cons c cs ih =>
    intro H
    simp only [anyFire, H (c :: cs) (List.suffix_refl _) (by simp), Option.isSome_none,
      Bool.false_or]
    exact ih fun q hq hne => H q (hq.trans (List.suffix_cons c cs)) hne

theorem mergeUl_id_nonl {l : List Char} (h : '\n' ∉ l) : runScan tryMergeUl l = l :=
  runScan_id_of_anyFire (anyFire_false_suffixes fun _ hq _ =>
    tryMergeUl_nofire_nonl fun hm => h (hq.subset hm))

theorem mergeOl_id_nonl {l : List Char} (h : '\n' ∉ l) : runScan tryMergeOl l = l :=
  runScan_id_of_anyFire (anyFire_false_suffixes fun _ hq _ =>
    tryMergeOl_nofire_nonl fun hm => h (hq.subset hm))

/-! ### Firing computations for the list matchers -/

theorem takeWhileB_append_stop {q : Char → Bool} {d : List Char} {x : Char} {z : List Char}
    (hall : ∀ c ∈ d, q c = true) (hx : q x = false) :
    (d ++ x :: z).takeWhile q = d := by
  induction d with
  | nil => simp [List.takeWhile_cons, hx]
  | cons c d' ih =>
    rw [List.cons_append, List.takeWhile_cons, if_pos (hall c (List.mem_cons_self _ _))]
    exact congrArg (c :: ·) (ih fun e he => hall e (List.mem_cons_of_mem _ he))

theorem tryUlWrap_fire {c : Char} {r : List Char}
    (hc : (c == '-' || c == '+' || c == '*') = true) (hr : '\n' ∉ r) :
    tryUlWrap (c :: ' ' :: r) =
      some ("<ul><li>".data ++ r ++ "</li></ul>".data, 1 + r.length) := by
  simp [tryUlWrap, hc, lineOf_eq_self hr]

theorem tryOlWrap_fire (d r : List Char) (hd : d ≠ [])
    (hdall : ∀ c ∈ d, pyDigit c = true) (hr : '\n' ∉ r) :
    tryOlWrap (d ++ '.' :: ' ' :: r) =
      some ("<ol><li>".data ++ r ++ "</li></ol>".data, d.length + 1 + r.length) := by
  rcases d with _ | ⟨c, d'⟩
  · exact absurd rfl hd
  have hc : pyDigit c = true := hdall c (List.mem_cons_self _ _)
  have hdot : pyDigit '.' = false := by decide
  have htw : ((c :: d') ++ '.' :: ' ' :: r).takeWhile pyDigit = c :: d' :=
    takeWhileB_append_stop hdall hdot
  have hdrop : ((c :: d') ++ '.' :: ' ' :: r).drop (c :: d').length = '.' :: ' ' :: r := by
    rw [List.drop_left]
  unfold tryOlWrap
  rw [List.cons_append]
  simp only [hc, if_true]
  rw [← List.cons_append, htw, hdrop]
  simp [lineOf_eq_self hr]

theorem tryMergeUl_fire (X : List Char) (hX : '\n' ∉ X) :
    tryMergeUl ("</ul>\n".data ++ X ++ "<ul>".data) = some (['\n'], 9 + X.length) := by
  have e1 : "</ul>\n".data ++ X ++ "<ul>".data =
      "</ul>\n".data ++ (X ++ "<ul>".data) := by rw [List.append_assoc]
  have hnl : '\n' ∉ X ++ "<ul>".data := by
    intro hm
    rcases List.mem_append.mp hm with h | h
    · exact hX h
    · exact absurd h (by decide)
  have hdrop : ("</ul>\n".data ++ (X ++ "<ul>".data)).drop 6 = X ++ "<ul>".data := by
    rw [show (6 : Nat) = ("</ul>\n".data).length from rfl, List.drop_left]
  rw [e1]
  unfold tryMergeUl
  simp only [isPrefixOf_append_self, if_true, hdrop, lineOf_eq_self hnl,
    lastTagIdx_append_tag "<ul>".data (by decide) X]

theorem tryMergeOl_fire (X : List Char) (hX : '\n' ∉ X) :
    tryMergeOl ("</ol>\n".data ++ X ++ "<ol>".data) = some (['\n'], 9 + X.length) := by
  have e1 : "</ol>\n".data ++ X ++ "<ol>".data =
      "</ol>\n".data ++ (X ++ "<ol>".data) := by rw [List.append_assoc]
  have hnl : '\n' ∉ X ++ "<ol>".data := by
    intro hm
    rcases List.mem_append.mp hm with h | h
    · exact hX h
    · exact absurd h (by decide)
  have hdrop : ("</ol>\n".data ++ (X ++ "<ol>".data)).drop 6 = X ++ "<ol>".data := by
    rw [show (6 : Nat) = ("</ol>\n".data).length from rfl, List.drop_left]
  rw [e1]
  unfold tryMergeOl
  simp only [isPrefixOf_append_self, if_true, hdrop, lineOf_eq_self hnl,
    lastTagIdx_append_tag "<ol>".data (by decide) X]

/-! ### C3, amended: the merge deletes the captured line content -/

/-- C3 amended: in the merge sub-passes, an occurrence of `</ul>` + newline
+ newline-free run `X` + `<ul>` is replaced by a newline alone — the
captured `X` is deleted from the output (and likewise for `</ol>`/`<ol>`). -/
theorem merge_collapses_to_newline (X : String) (hX : '\n' ∉ X.data) :
    ul_finished ("</ul>\n" ++ X ++ "<ul>") = "\n" ∧
      ol_ul_finished ("</ol>\n" ++ X ++ "<ol>") = "\n" := by
  constructor
  · apply strExt
    show runScan tryMergeUl ("</ul>\n" ++ X ++ "<ul>").data = _
    have hd : ("</ul>\n" ++ X ++ "<ul>").data =
        "</ul>\n".data ++ X.data ++ "<ul>".data := by
      rw [strData_append, strData_append]
    rw [hd]
    have hfire := tryMergeUl_fire X.data hX
    have hshape : "</ul>\n".data ++ X.data ++ "<ul>".data =
        '<' :: ("/ul>\n".data ++ X.data ++ "<ul>".data) := rfl
    rw [hshape] at hfire
    rw [hshape, runScan_cons_some hfire,
      List.drop_eq_nil_of_le (by simp [List.length_append]; omega), runScan_nil]
    rfl
  · apply strExt
    show runScan tryMergeOl ("</ol>\n" ++ X ++ "<ol>").data = _
    have hd : ("</ol>\n" ++ X ++ "<ol>").data =
        "</ol>\n".data ++ X.data ++ "<ol>".data := by
      rw [strData_append, strData_append]
    rw [hd]
    have hfire := tryMergeOl_fire X.data hX
    have hshape : "</ol>\n".data ++ X.data ++ "<ol>".data =
        '<' :: ("/ol>\n".data ++ X.data ++ "<ol>".data) := rfl
    rw [hshape] at hfire
    rw [hshape, runScan_cons_some hfire,
      List.drop_eq_nil_of_le (by simp [List.length_append]; omega), runScan_nil]
    rfl

/-- Witness for the amended C3 at `X = "foo"`. -/
theorem merge_collapses_to_newline_witness :
    ul_finished ("</ul>\n" ++ "foo" ++ "<ul>") = "\n" ∧
      ol_ul_finished ("</ol>\n" ++ "foo" ++ "<ol>") = "\n" :=
  merge_collapses_to_newline "foo" (by decide)

/-! ### C2, amended: the list patterns fire anywhere in a line -/

theorem data_mk (l : List Char) : (String.mk l).data = l := rfl

/-- C2 amended: the list rewriter applies its item patterns at any position
of a line, not only at line starts: for marker-free, digit-free, newline-free
`t` and `r`, a bullet (or digit-dot) marker-plus-space occurring after `t`
is rewritten from that point on, capturing the rest of the line. -/
theorem lists_unanchored (t r : String)
    (ht : ∀ c ∈ t.data, c ≠ '-' ∧ c ≠ '+' ∧ c ≠ '*' ∧ c ≠ '\n' ∧ pyDigit c = false)
    (hr : ∀ c ∈ r.data, c ≠ '-' ∧ c ≠ '+' ∧ c ≠ '*' ∧ c ≠ '\n' ∧ pyDigit c = false) :
    lists (t ++ "- " ++ r) = t ++ "<ul><li>" ++ r ++ "</li></ul>" ∧
      lists (t ++ "1. " ++ r) = t ++ "<ol><li>" ++ r ++ "</li></ol>" := by
  have hrnl : '\n' ∉ r.data := fun hm => ((hr _ hm).2.2.2.1) rfl
  have htnl : '\n' ∉ t.data := fun hm => ((ht _ hm).2.2.2.1) rfl
  constructor
  · -- the unordered case
    have e0 : (t ++ "- " ++ r).data = t.data ++ '-' :: ' ' :: r.data := by
      rw [strData_append, strData_append, List.append_assoc]; rfl
    -- step 1: the wrap pass fires at the mid-line marker
    have h1 : runScan tryUlWrap (t.data ++ '-' :: ' ' :: r.data) =
        t.data ++ ("<ul><li>".data ++ r.data ++ "</li></ul>".data) := by
      rw [runScan_append_triggers t.data _
        (fun c hc z => tryUlWrap_nofire z (ht c hc).1 (ht c hc).2.1 (ht c hc).2.2.1),
        runScan_cons_some (tryUlWrap_fire (by decide) hrnl),
        List.drop_eq_nil_of_le (by simp; omega), runScan_nil, List.append_nil]
    set W : List Char := t.data ++ ("<ul><li>".data ++ r.data ++ "</li></ul>".data) with hW
    have hWnl : '\n' ∉ W := by
      intro hm
      rcases List.mem_append.mp hm with h | h
      · exact htnl h
      · rcases List.mem_append.mp h with h2 | h2
        · rcases List.mem_append.mp h2 with h3 | h3
          · exact absurd h3 (by decide)
          · exact ((hr _ h3).2.2.2.1) rfl
        · exact absurd h2 (by decide)
    have hWdig : ∀ c ∈ W, pyDigit c = false := by
      intro c hm
      rcases List.mem_append.mp hm with h | h
      · exact (ht c h).2.2.2.2
      · have hd1 : ∀ x ∈ "<ul><li>".data, pyDigit x = false := by decide
        have hd2 : ∀ x ∈ "</li></ul>".data, pyDigit x = false := by decide
        rcases List.mem_append.mp h with h2 | h2
        · rcases List.mem_append.mp h2 with h3 | h3
          · exact hd1 c h3
          · exact (hr c h3).2.2.2.2
        · exact hd2 c h2
    have h2 : runScan tryMergeUl W = W := mergeUl_id_nonl hWnl
    have h3 : runScan tryOlWrap W = W :=
      runScan_id_triggers fun c hc z => tryOlWrap_nofire z (hWdig c hc)
    have h4 : runScan tryMergeOl W = W := mergeOl_id_nonl hWnl
    apply strExt
    show (ol_ul_finished (ol_wrapped (ul_finished (ul_wrapped (t ++ "- " ++ r))))).data = _
    unfold ul_wrapped ul_finished ol_wrapped ol_ul_finished
    simp only [data_mk]
    rw [e0, h1, h2, h3, h4, hW]
    rw [strData_append, strData_append, strData_append]
    simp [List.append_assoc]
  · -- the ordered case
    have e0 : (t ++ "1. " ++ r).data = t.data ++ '1' :: '.' :: ' ' :: r.data := by
      rw [strData_append, strData_append, List.append_assoc]; rfl
    have hmark : ∀ c ∈ t.data ++ '1' :: '.' :: ' ' :: r.data,
        c ≠ '-' ∧ c ≠ '+' ∧ c ≠ '*' := by
      intro c hm
      rcases List.mem_append.mp hm with h | h
      · exact ⟨(ht c h).1, (ht c h).2.1, (ht c h).2.2.1⟩
      · simp only [List.mem_cons] at h
        rcases h with rfl | rfl | rfl | h
        · exact (by decide)
        · exact (by decide)
        · exact (by decide)
        · exact ⟨(hr c h).1, (hr c h).2.1, (hr c h).2.2.1⟩
    have h1 : runScan tryUlWrap (t.data ++ '1' :: '.' :: ' ' :: r.data) =
        t.data ++ '1' :: '.' :: ' ' :: r.data :=
      runScan_id_triggers fun c hc z =>
        tryUlWrap_nofire z (hmark c hc).1 (hmark c hc).2.1 (hmark c hc).2.2
    have hVnl : '\n' ∉ t.data ++ '1' :: '.' :: ' ' :: r.data := by
      intro hm
      rcases List.mem_append.mp hm with h | h
      · exact htnl h
      · simp only [List.mem_cons] at h
        rcases h with h0 | h0 | h0 | h0
        · exact absurd h0 (by decide)
        · exact absurd h0 (by decide)
        · exact absurd h0 (by decide)
        · exact hrnl h0
    have h2 : runScan tryMergeUl (t.data ++ '1' :: '.' :: ' ' :: r.data) =
        t.data ++ '1' :: '.' :: ' ' :: r.data := mergeUl_id_nonl hVnl
    have hfire : tryOlWrap ('1' :: '.' :: ' ' :: r.data) =
        some ("<ol><li>".data ++ r.data ++ "</li></ol>".data, 2 + r.data.length) := by
      have := tryOlWrap_fire ['1'] r.data (by simp) (by decide) hrnl
      simpa using this
    have h3 : runScan tryOlWrap (t.data ++ '1' :: '.' :: ' ' :: r.data) =
        t.data ++ ("<ol><li>".data ++ r.data ++ "</li></ol>".data) := by
      rw [runScan_append_triggers t.data _
        (fun c hc z => tryOlWrap_nofire z (ht c hc).2.2.2.2),
        runScan_cons_some hfire,
        List.drop_eq_nil_of_le (by simp; omega), runScan_nil, List.append_nil]
    have hWnl : '\n' ∉ t.data ++ ("<ol><li>".data ++ r.data ++ "</li></ol>".data) := by
      intro hm
      rcases List.mem_append.mp hm with h | h
      · exact htnl h
      · rcases List.mem_append.mp h with h2 | h2
        · rcases List.mem_append.mp h2 with h3 | h3
          · exact absurd h3 (by decide)
          · exact hrnl h3
        · exact absurd h2 (by decide)
    have h4 : runScan tryMergeOl (t.data ++ ("<ol><li>".data ++ r.data ++ "</li></ol>".data)) =
        t.data ++ ("<ol><li>".data ++ r.data ++ "</li></ol>".data) := mergeOl_id_nonl hWnl
    apply strExt
    show (ol_ul_finished (ol_wrapped (ul_finished (ul_wrapped (t ++ "1. " ++ r))))).data = _
    unfold ul_wrapped ul_finished ol_wrapped ol_ul_finished
    simp only [data_mk]
    rw [e0, h1, h2, h3, h4]
    rw [strData_append, strData_append, strData_append]
    simp [List.append_assoc]

/-! ### C5, amended: separator interiors may contain any `\s` character -/

/-- C5 amended: `paragraphs` collapses a separator consisting of a newline,
a run of arbitrary Python-whitespace characters (spaces, tabs, CR, FF, VT,
further newlines, Unicode spaces), and a final newline into `</p>\n<p>`,
then wraps the whole buffer in `<p>` … `</p>`. -/
theorem paragraphs_blank_separator (a u b : String)
    (ha : '\n' ∉ a.data) (hu : ∀ c ∈ u.data, pySpace c = true) (hb : '\n' ∉ b.data) :
    paragraphs (a ++ "\n" ++ u ++ "\n" ++ b) = "<p>" ++ a ++ "</p>\n<p>" ++ b ++ "</p>" := by
  have hfire : tryParas ('\n' :: (u.data ++ '\n' :: b.data)) =
      some ("</p>\n<p>".data, u.data.length + 1) := by
    simp [tryParas, lastNlInRun_spaces hu hb]
  have hdrop : (u.data ++ '\n' :: b.data).drop (u.data.length + 1) = b.data := by
    rw [show u.data ++ '\n' :: b.data = (u.data ++ ['\n']) ++ b.data by simp,
      show u.data.length + 1 = (u.data ++ ['\n']).length by simp, List.drop_left]
  have h1 : runScan tryParas (a.data ++ '\n' :: (u.data ++ '\n' :: b.data)) =
      a.data ++ ("</p>\n<p>".data ++ b.data) := by
    rw [runScan_append_triggers a.data _
      (fun c hc z => tryParas_nofire z fun he => ha (he ▸ hc)),
      runScan_cons_some hfire, hdrop,
      runScan_id_triggers fun c hc z => tryParas_nofire z fun he => hb (he ▸ hc)]
  apply strExt
  unfold paragraphs
  simp only [strData_append, data_mk]
  rw [show a.data ++ ['\n'] ++ u.data ++ ['\n'] ++ b.data =
        a.data ++ '\n' :: (u.data ++ '\n' :: b.data) from by simp [List.append_assoc],
    h1]
  simp [List.append_assoc]

/-- Witness for the amended C5 at `a = "P1"`, `u = " \r\t"`, `b = "P2"`
(the interior line contains a carriage return). -/
theorem paragraphs_blank_separator_witness :
    paragraphs ("P1" ++ "\n" ++ " \r\t" ++ "\n" ++ "P2") =
      "<p>" ++ "P1" ++ "</p>\n<p>" ++ "P2" ++ "</p>" :=
  paragraphs_blank_separator "P1" " \r\t" "P2" (by decide) (by decide) (by decide)

/-! ### C9, amended: triple asterisks nest for nonempty inner text -/

/-- C9 amended: for every nonempty string `x` with no newline and no
asterisk, applying `italics` after `bold` to `"***" ++ x ++ "***"` yields
`"<strong><em>" ++ x ++ "</em></strong>"`; in particular
`convert "***hello***"` is the fully wrapped nested form. -/
theorem triple_star_nested (x : String) (hne : x.data ≠ []) (hnl : '\n' ∉ x.data)
    (hst : '*' ∉ x.data) :
    italics (bold ("***" ++ x ++ "***")) = "<strong><em>" ++ x ++ "</em></strong>" ∧
      html "***hello***" = "<article><p><strong><em>hello</em></strong></p></article>" := by
  refine ⟨?_, by decide⟩
  -- the capture of the bold pass
  have hLnl : '\n' ∉ '*' :: (x.data ++ ['*', '*', '*']) := by
    intro hm
    rcases List.mem_cons.mp hm with h0 | h0
    · exact absurd h0 (by decide)
    · rcases List.mem_append.mp h0 with h1 | h1
      · exact hnl h1
      · exact absurd h1 (by decide)
  have hshapeL : '*' :: (x.data ++ ['*', '*', '*']) =
      ('*' :: (x.data ++ ['*'])) ++ ['*', '*'] := by simp
  have hj : lastTagIdx ['*', '*'] ('*' :: (x.data ++ ['*', '*', '*'])) =
      some (x.data.length + 2) := by
    rw [hshapeL]
    have := lastTagIdx_append_tag ['*', '*'] (by decide) ('*' :: (x.data ++ ['*']))
    simpa using this
  have htake : ('*' :: (x.data ++ ['*', '*', '*'])).take (x.data.length + 2) =
      '*' :: (x.data ++ ['*']) := by
    rw [hshapeL,
      show x.data.length + 2 = ('*' :: (x.data ++ ['*'])).length by simp,
      List.take_left]
  have hfire : tryBold ('*' :: '*' :: ('*' :: (x.data ++ ['*', '*', '*']))) =
      some ("<strong>".data ++ ('*' :: (x.data ++ ['*'])) ++ "</strong>".data,
        x.data.length + 2 + 3) := by
    simp only [tryBold, lineOf_eq_self hLnl, hj]
    rw [if_pos (by omega : 1 ≤ x.data.length + 2), htake]
  have hsh : ("***" ++ x ++ "***").data =
      '*' :: '*' :: ('*' :: (x.data ++ ['*', '*', '*'])) := by
    simp [strData_append, List.append_assoc]
  have hbold : bold ("***" ++ x ++ "***") =
      String.mk ("<strong>".data ++ ('*' :: (x.data ++ ['*'])) ++ "</strong>".data) := by
    unfold bold
    rw [hsh, runScan_cons_some hfire,
      List.drop_eq_nil_of_le (by simp), runScan_nil, List.append_nil]
  -- the italics pass on the bold output
  have hMsh : "<strong>".data ++ ('*' :: (x.data ++ ['*'])) ++ "</strong>".data =
      "<strong>".data ++ '*' :: (x.data ++ '*' :: "</strong>".data) := by
    simp [List.append_assoc]
  have hcsnl : '\n' ∉ x.data ++ '*' :: "</strong>".data := by
    intro hm
    rcases List.mem_append.mp hm with h | h
    · exact hnl h
    · exact absurd h (by decide)
  have hj2 : lastTagIdx ['*'] (x.data ++ '*' :: "</strong>".data) = some x.data.length :=
    lastTagIdx_single hst (by decide)
  have h1le2 : 1 ≤ x.data.length := by
    cases hx : x.data with
    | nil => exact absurd hx hne
    | cons c cs => simp [hx]
  have htake2 : (x.data ++ '*' :: "</strong>".data).take x.data.length = x.data :=
    List.take_left x.data _
  have hfire2 : tryItal ('*' :: (x.data ++ '*' :: "</strong>".data)) =
      some ("<em>".data ++ x.data ++ "</em>".data, x.data.length + 1) := by
    simp [tryItal, lineOf_eq_self hcsnl, hj2, h1le2, htake2]
    have hxlen : x.length = x.data.length := rfl
    omega
  have hdrop2 : (x.data ++ '*' :: "</strong>".data).drop (x.data.length + 1) =
      "</strong>".data := by
    rw [show x.data ++ '*' :: "</strong>".data = (x.data ++ ['*']) ++ "</strong>".data
        by simp,
      show x.data.length + 1 = (x.data ++ ['*']).length by simp, List.drop_left]
  apply strExt
  rw [hbold]
  unfold italics
  simp only [data_mk]
  rw [hMsh,
    runScan_append_triggers "<strong>".data _
      (fun c hc z => tryItal_nofire z fun he => absurd (he ▸ hc) (by decide)),
    runScan_cons_some hfire2, hdrop2,
    runScan_id_triggers fun c hc z => tryItal_nofire z fun he => absurd (he ▸ hc) (by decide)]
  simp [strData_append, List.append_assoc]

/-- Witness for the amended C9 at `x = "hello"`. -/
theorem triple_star_nested_witness :
    italics (bold ("***" ++ "hello" ++ "***")) = "<strong><em>" ++ "hello" ++ "</em></strong>" ∧
      html "***hello***" = "<article><p><strong><em>hello</em></strong></p></article>" :=
  triple_star_nested "hello" (by decide) (by decide) (by decide)

/-! ### C4, amended: plain text passes through wrapped verbatim -/

theorem headersScan_id {i : Nat} {l : List Char} (hi : 1 ≤ i) (h : '#' ∉ l) :
    runScan (tryHdrNl i) l = l :=
  runScan_id_of_anyFire (anyFire_false_suffixes fun q hq hne => by
    obtain ⟨c, cs, rfl⟩ := List.exists_cons_of_ne_nil hne
    exact tryHdrNl_nofire_nohash i cs hi fun hm =>
      h (hq.subset (List.mem_cons_of_mem _ hm)))

theorem headersPass_id {i : Nat} {l : List Char} (hi : 1 ≤ i) (h : '#' ∉ l) :
    headersPass i l = l := by
  unfold headersPass
  simp only [tryHdrCore_none_nohash hi h]
  exact headersScan_id hi h

theorem headers_id {s : String} (h : '#' ∉ s.data) : headers s = s := by
  unfold headers
  rw [headersPass_id (by omega) h, headersPass_id (by omega) h,
    headersPass_id (by omega) h, headersPass_id (by omega) h,
    headersPass_id (by omega) h, headersPass_id (by omega) h, strMk_data]

/-- C4 amended: for every string containing none of `#`, `*`, `-`, `+`,
no occurrence of the digit-dot-space pattern anywhere (not only at line
starts), no occurrence of the `</ul>`-newline-line-`<ul>` (or `ol`) merge
pattern, and no blank separator, `convert` returns
`"<article><p>" ++ s ++ "</p></article>"`. -/
theorem html_plain_text (s : String)
    (h1 : '#' ∉ s.data) (h2 : '*' ∉ s.data) (h3 : '-' ∉ s.data) (h4 : '+' ∉ s.data)
    (h5 : anyFire tryOlWrap s.data = false)
    (h6 : anyFire tryMergeUl s.data = false)
    (h7 : anyFire tryMergeOl s.data = false)
    (h8 : hasBlankSep s = false) :
    html s = "<article><p>" ++ s ++ "</p></article>" := by
  have hh : headers s = s := headers_id h1
  have hb : bold s = s := by
    unfold bold
    rw [runScan_id_triggers fun c hc z => tryBold_nofire z fun he => h2 (he ▸ hc),
      strMk_data]
  have hit : italics s = s := by
    unfold italics
    rw [runScan_id_triggers fun c hc z => tryItal_nofire z fun he => h2 (he ▸ hc),
      strMk_data]
  have hul : runScan tryUlWrap s.data = s.data :=
    runScan_id_triggers fun c hc z => tryUlWrap_nofire z
      (fun he => h3 (he ▸ hc)) (fun he => h4 (he ▸ hc)) (fun he => h2 (he ▸ hc))
  have hlists : lists s = s := by
    unfold lists ul_wrapped ul_finished ol_wrapped ol_ul_finished
    simp only [data_mk]
    rw [hul, runScan_id_of_anyFire h6, runScan_id_of_anyFire h5,
      runScan_id_of_anyFire h7, strMk_data]
  have h8' : anyFire tryParas s.data = false := h8
  have hpar : paragraphs s = "<p>" ++ s ++ "</p>" := by
    unfold paragraphs
    rw [runScan_id_of_anyFire h8', strMk_data]
  unfold html
  rw [hh, hb, hit, hlists, hpar]
  apply strExt
  simp [strData_append, List.append_assoc]

/-- Witness for the amended C4 at `s = "hello world\nbye"`. -/
theorem html_plain_text_witness :
    html "hello world\nbye" = "<article><p>" ++ "hello world\nbye" ++ "</p></article>" :=
  html_plain_text "hello world\nbye" (by decide) (by decide) (by decide) (by decide)
    (by decide) (by decide) (by decide) (by decide)

/-! ### C8, amended: leading whitespace is consumed, trailing kept -/

theorem htab_ne_hash {c : Char} (h : isHTab c = true) : c ≠ '#' := by
  intro he; subst he; simp [isHTab] at h

theorem headersScan_id_nonl {i : Nat} {l : List Char} (h : '\n' ∉ l) :
    runScan (tryHdrNl i) l = l :=
  runScan_id_triggers fun c hc z => tryHdrNl_nofire i z fun he => h (he ▸ hc)

theorem replicate_hash_not_prefixOf {i n : Nat} {cw : Char} {z : List Char}
    (hgt : n < i) (hcw : cw ≠ '#') :
    (List.replicate i '#').isPrefixOf (List.replicate n '#' ++ cw :: z) = false := by
  induction n generalizing i with
  | zero =>
    obtain ⟨i', rfl⟩ : ∃ i', i = i' + 1 := ⟨i - 1, by omega⟩
    have hb : ('#' == cw) = false := beq_eq_false_iff_ne.mpr (Ne.symm hcw)
    simp [List.replicate_succ, List.isPrefixOf, hb]
  | succ n ih =>
    obtain ⟨i', rfl⟩ : ∃ i', i = i' + 1 := ⟨i - 1, by omega⟩
    simp only [List.replicate_succ, List.cons_append, List.isPrefixOf, beq_self_eq_true,
      Bool.true_and]
    exact ih (by omega)

theorem tryHdrCore_none_head {i : Nat} (c : Char) {rest : List Char} (hi : 1 ≤ i)
    (hc : c ≠ '#') : tryHdrCore i (c :: rest) = none := by
  obtain ⟨i', rfl⟩ : ∃ i', i = i' + 1 := ⟨i - 1, by omega⟩
  have hb : ('#' == c) = false := beq_eq_false_iff_ne.mpr (Ne.symm hc)
  unfold tryHdrCore
  simp [List.replicate_succ, List.isPrefixOf, hb]

theorem tryHdrCore_fire {n : Nat} {w t : List Char} {c : Char}
    (hw : w ≠ []) (hwall : ∀ x ∈ w, isHTab x = true)
    (hc : isHTab c = false) (hcn : c ≠ '\n') (ht : '\n' ∉ t) :
    tryHdrCore n (List.replicate n '#' ++ w ++ c :: t) =
      some (c :: t, n + w.length + (c :: t).length) := by
  have e0 : List.replicate n '#' ++ w ++ c :: t =
      List.replicate n '#' ++ (w ++ c :: t) := by rw [List.append_assoc]
  have hpre : (List.replicate n '#').isPrefixOf
      (List.replicate n '#' ++ (w ++ c :: t)) = true := isPrefixOf_append_self _ _
  have hdropn : (List.replicate n '#' ++ (w ++ c :: t)).drop n = w ++ c :: t :=
    List.drop_left' (by simp)
  have htw : (w ++ c :: t).takeWhile isHTab = w := takeWhileB_append_stop hwall hc
  have hlen0 : ¬w.length = 0 := fun h0 => hw (List.length_eq_zero.mp h0)
  have hdropw : (w ++ c :: t).drop w.length = c :: t := List.drop_left _ _
  have hline : lineOf (c :: t) = c :: t := lineOf_eq_self (by
    intro hm
    rcases List.mem_cons.mp hm with h0 | h0
    · exact hcn h0.symm
    · exact ht h0)
  rw [e0]
  unfold tryHdrCore
  simp [hpre, hdropn, htw, hdropw, hline, hlen0]

theorem headersPass_gt {i n : Nat} {w t : List Char} {c : Char} (hgt : n < i)
    (hw : w ≠ []) (hwall : ∀ x ∈ w, isHTab x = true)
    (hnl : '\n' ∉ List.replicate n '#' ++ w ++ c :: t) :
    headersPass i (List.replicate n '#' ++ w ++ c :: t) =
      List.replicate n '#' ++ w ++ c :: t := by
  obtain ⟨cw, w', rfl⟩ := List.exists_cons_of_ne_nil hw
  have hcw : cw ≠ '#' := htab_ne_hash (hwall cw (List.mem_cons_self _ _))
  have e : List.replicate n '#' ++ (cw :: w') ++ c :: t =
      List.replicate n '#' ++ cw :: (w' ++ c :: t) := by simp
  have hcore : tryHdrCore i (List.replicate n '#' ++ (cw :: w') ++ c :: t) = none := by
    rw [e]
    unfold tryHdrCore
    simp [replicate_hash_not_prefixOf hgt hcw]
  unfold headersPass
  simp only [hcore]
  exact headersScan_id_nonl hnl

theorem headersPass_fire {n : Nat} {w t : List Char} {c : Char}
    (hw : w ≠ []) (hwall : ∀ x ∈ w, isHTab x = true)
    (hc : isHTab c = false) (hcn : c ≠ '\n') (ht : '\n' ∉ t) :
    headersPass n (List.replicate n '#' ++ w ++ c :: t) =
      hOpen n ++ (c :: t) ++ hClose n := by
  unfold headersPass
  simp only [tryHdrCore_fire hw hwall hc hcn ht]
  rw [List.drop_eq_nil_of_le (by simp; omega), runScan_nil, List.append_nil,
    List.append_assoc]

theorem headersPass_inert {i : Nat} {rest : List Char} (hi : 1 ≤ i)
    (hnl : '\n' ∉ '<' :: rest) : headersPass i ('<' :: rest) = '<' :: rest := by
  unfold headersPass
  simp only [tryHdrCore_none_head '<' hi (by decide)]
  exact headersScan_id_nonl hnl

theorem headers_aux {n : Nat} {X Y : List Char} (h1 : 1 ≤ n) (h2 : n ≤ 6)
    (hfire : headersPass n X = Y)
    (hgt : ∀ i, n < i → headersPass i X = X)
    (hlt : ∀ i, 1 ≤ i → i < n → headersPass i Y = Y) :
    headersPass 1 (headersPass 2 (headersPass 3 (headersPass 4 (headersPass 5
      (headersPass 6 X))))) = Y := by
  interval_cases n
  · rw [hgt 6 (by omega), hgt 5 (by omega), hgt 4 (by omega), hgt 3 (by omega),
      hgt 2 (by omega), hfire]
  · rw [hgt 6 (by omega), hgt 5 (by omega), hgt 4 (by omega), hgt 3 (by omega),
      hfire, hlt 1 (by omega) (by omega)]
  · rw [hgt 6 (by omega), hgt 5 (by omega), hgt 4 (by omega), hfire,
      hlt 2 (by omega) (by omega), hlt 1 (by omega) (by omega)]
  · rw [hgt 6 (by omega), hgt 5 (by omega), hfire, hlt 3 (by omega) (by omega),
      hlt 2 (by omega) (by omega), hlt 1 (by omega) (by omega)]
  · rw [hgt 6 (by omega), hfire, hlt 4 (by omega) (by omega),
      hlt 3 (by omega) (by omega), hlt 2 (by omega) (by omega),
      hlt 1 (by omega) (by omega)]
  · rw [hfire, hlt 5 (by omega) (by omega), hlt 4 (by omega) (by omega),
      hlt 3 (by omega) (by omega), hlt 2 (by omega) (by omega),
      hlt 1 (by omega) (by omega)]

/-- C8 amended: a line of `N` hashes (1 ≤ N ≤ 6), one-or-more spaces/tabs
and then text becomes `<hN>` + the remainder of the line + `</hN>`: the
whitespace between the hashes and the text is consumed, but trailing
whitespace at the end of the line is kept in the emitted heading content. -/
theorem headers_hash_line (n : Nat) (w t : List Char) (c : Char)
    (h1 : 1 ≤ n) (h2 : n ≤ 6) (hw : w ≠ []) (hwall : ∀ x ∈ w, isHTab x = true)
    (hc : isHTab c = false) (hcn : c ≠ '\n') (ht : '\n' ∉ t) :
    headers (String.mk (List.replicate n '#' ++ w ++ c :: t)) =
      String.mk (hOpen n ++ (c :: t) ++ hClose n) := by
  have hinl : '\n' ∉ List.replicate n '#' ++ w ++ c :: t := by
    intro hm
    rcases List.mem_append.mp hm with h0 | h0
    · rcases List.mem_append.mp h0 with h3 | h3
      · exact absurd (List.eq_of_mem_replicate h3) (by decide)
      · exact absurd (hwall '\n' h3) (by decide)
    · rcases List.mem_cons.mp h0 with h3 | h3
      · exact hcn h3.symm
      · exact ht h3
  have hd : Char.ofNat (48 + n) ≠ '\n' := by interval_cases n <;> decide
  have hO : hOpen n ++ (c :: t) ++ hClose n =
      '<' :: ('h' :: Char.ofNat (48 + n) :: '>' :: ((c :: t) ++ hClose n)) := by
    simp [hOpen, List.append_assoc]
  have hOnl : '\n' ∉ '<' :: ('h' :: Char.ofNat (48 + n) :: '>' :: ((c :: t) ++ hClose n)) := by
    intro hm
    simp only [List.mem_cons] at hm
    rcases hm with h0 | h0 | h0 | h0 | h0
    · exact absurd h0 (by decide)
    · exact absurd h0 (by decide)
    · exact hd h0.symm
    · exact absurd h0 (by decide)
    · rcases List.mem_append.mp h0 with h3 | h3
      · rcases List.mem_cons.mp h3 with h4 | h4
        · exact hcn h4.symm
        · exact ht h4
      · simp only [hClose, List.mem_cons] at h3
        rcases h3 with h4 | h4 | h4 | h4 | h4
        · exact absurd h4 (by decide)
        · exact absurd h4 (by decide)
        · exact absurd h4 (by decide)
        · exact hd h4.symm
        · rcases h4 with h5 | h5
          · exact absurd h5 (by decide)
          · exact absurd h5 (List.not_mem_nil _)
  unfold headers
  simp only [data_mk]
  refine congrArg String.mk (headers_aux h1 h2
    (headersPass_fire hw hwall hc hcn ht)
    (fun i hi => headersPass_gt hi hw hwall hinl)
    (fun i hi1 hi2 => ?_))
  rw [hO]
  exact headersPass_inert hi1 hOnl

/-- Witness for the amended C8 at `N = 2`, line `"## hi "`. -/
theorem headers_hash_line_witness :
    headers "## hi " = "<h2>hi </h2>" := by
  have h := headers_hash_line 2 [' '] ['i', ' '] 'h' (by decide) (by decide)
    (by decide) (by decide) (by decide) (by decide) (by decide)
  have e1 : String.mk (List.replicate 2 '#' ++ [' '] ++ 'h' :: ['i', ' ']) = "## hi " := by
    decide
  have e2 : String.mk (hOpen 2 ++ ('h' :: ['i', ' ']) ++ hClose 2) = "<h2>hi </h2>" := by
    decide
  rw [e1, e2] at h
  exact h

/-! ### C6, amended: headers, bold and italics create no blank separator -/

theorem htab_ne_nl {c : Char} (h : isHTab c = true) : c ≠ '\n' := by
  intro he; subst he; simp [isHTab] at h

theorem tryBold_fire_inv {x r : List Char} {k : Nat} (h : tryBold x = some (r, k)) :
    (∃ r', r = '<' :: r') ∧ '\n' ∉ r := by
  unfold tryBold at h
  split at h
  · next cs =>
    split at h
    · next j hj =>
      split at h
      · next h1j =>
        injection h with h'
        injection h' with hr hk
        subst hr
        refine ⟨⟨_, rfl⟩, ?_⟩
        intro hm
        rcases List.mem_append.mp hm with h0 | h0
        · rcases List.mem_append.mp h0 with h2 | h2
          · exact absurd h2 (by decide)
          · exact mem_lineOf_ne_nl (List.take_subset _ _ h2) rfl
        · exact absurd h0 (by decide)
      · exact absurd h (by simp)
    · exact absurd h (by simp)
  · exact absurd h (by simp)

theorem tryItal_fire_inv {x r : List Char} {k : Nat} (h : tryItal x = some (r, k)) :
    (∃ r', r = '<' :: r') ∧ '\n' ∉ r := by
  unfold tryItal at h
  split at h
  · next cs =>
    split at h
    · next j hj =>
      split at h
      · next h1j =>
        injection h with h'
        injection h' with hr hk
        subst hr
        refine ⟨⟨_, rfl⟩, ?_⟩
        intro hm
        rcases List.mem_append.mp hm with h0 | h0
        · rcases List.mem_append.mp h0 with h2 | h2
          · exact absurd h2 (by decide)
          · exact mem_lineOf_ne_nl (List.take_subset _ _ h2) rfl
        · exact absurd h0 (by decide)
      · exact absurd h (by simp)
    · exact absurd h (by simp)
  · exact absurd h (by simp)

theorem lastNlInRun_scan_star {t : List Char → Option (List Char × Nat)}
    (hstar : ∀ (c : Char) (cs : List Char), c ≠ '*' → t (c :: cs) = none)
    (hrepl : ∀ x r k, t x = some (r, k) → ∃ r', r = '<' :: r') :
    ∀ (f : Nat) (l : List Char), lastNlInRun (scan t f l) = lastNlInRun l := by
  intro f
  induction f with
  | zero => intro l; rfl
  | succ f ih =>
    intro l
    cases l with
    | nil => rfl
    | cons c cs =>
      by_cases hsp : pySpace c = true
      · have hc : c ≠ '*' := by
          intro he; subst he; exact absurd hsp (by decide)
        have hnone := hstar c cs hc
        simp only [scan, hnone]
        simp [lastNlInRun, hsp, ih cs]
      · cases hf : t (c :: cs) with
        | none =>
          simp only [scan, hf]
          simp [lastNlInRun, hsp]
        | some rk =>
          obtain ⟨r, k⟩ := rk
          obtain ⟨r', rfl⟩ := hrepl _ _ _ hf
          simp only [scan, hf]
          have h1 : lastNlInRun (('<' :: r') ++ scan t f (cs.drop k)) = none := by
            simp [lastNlInRun, (by decide : pySpace '<' = false)]
          rw [h1]
          simp [lastNlInRun, hsp]

theorem blanksep_scan_star {t : List Char → Option (List Char × Nat)}
    (hstar : ∀ (c : Char) (cs : List Char), c ≠ '*' → t (c :: cs) = none)
    (hrepl : ∀ x r k, t x = some (r, k) → (∃ r', r = '<' :: r') ∧ '\n' ∉ r) :
    ∀ (f : Nat) (l : List Char), anyFire tryParas l = false →
      anyFire tryParas (scan t f l) = false := by
  intro f
  induction f with
  | zero => intro l h; exact h
  | succ f ih =>
    intro l h
    cases l with
    | nil => exact h
    | cons c cs =>
      obtain ⟨hp1, hp2⟩ := anyFire_cons_false h
      cases hf : t (c :: cs) with
      | none =>
        simp only [scan, hf]
        have h2 : anyFire tryParas (scan t f cs) = false := ih cs hp2
        by_cases hc : c = '\n'
        · subst hc
          have hln : lastNlInRun cs = none := by
            cases hln : lastNlInRun cs with
            | none => rfl
            | some j => simp [tryParas, hln] at hp1
          have hln2 : lastNlInRun (scan t f cs) = none := by
            rw [lastNlInRun_scan_star hstar (fun x r k hx => (hrepl x r k hx).1) f cs, hln]
          simp [anyFire, tryParas, hln2, h2]
        · simp [anyFire, tryParas_nofire _ hc, h2]
      | some rk =>
        obtain ⟨r, k⟩ := rk
        obtain ⟨⟨r', rfl⟩, hrnl⟩ := hrepl _ _ _ hf
        simp only [scan, hf]
        rw [anyFire_append_none ('<' :: r') _
          (fun d hd z => tryParas_nofire z fun he => hrnl (he ▸ hd))]
        exact ih (cs.drop k) (anyFire_drop_false k hp2)

theorem tryHdrCore_some_facts {i : Nat} {l g : List Char} {k : Nat} (hi : 1 ≤ i)
    (h : tryHdrCore i l = some (g, k)) : (∃ l', l = '#' :: l') ∧ '\n' ∉ g := by
  unfold tryHdrCore at h
  split at h
  · next hp =>
    constructor
    · obtain ⟨i', rfl⟩ : ∃ i', i = i' + 1 := ⟨i - 1, by omega⟩
      cases l with
      | nil => simp [List.replicate_succ, List.isPrefixOf] at hp
      | cons c l' =>
        simp only [List.replicate_succ, List.isPrefixOf, Bool.and_eq_true,
          beq_iff_eq] at hp
        exact ⟨l', by rw [← hp.1]⟩
    · dsimp only at h
      split at h
      · exact absurd h (by simp)
      · split at h
        · injection h with h'
          injection h' with hg hk
          subst hg
          intro hm
          exact mem_lineOf_ne_nl hm rfl
        · split at h
          · injection h with h'
            injection h' with hg hk
            subst hg
            intro hm
            exact htab_ne_nl (mem_takeWhileB (List.drop_subset _ _ hm)) rfl
          · exact absurd h (by simp)
  · exact absurd h (by simp)

theorem tryHdrNl_fire_inv {i : Nat} {x r : List Char} {k : Nat}
    (h : tryHdrNl i x = some (r, k)) :
    ∃ cs g, x = '\n' :: cs ∧ tryHdrCore i cs = some (g, k) ∧
      r = '\n' :: (hOpen i ++ g ++ hClose i) := by
  unfold tryHdrNl at h
  split at h
  · next cs =>
    split at h
    · next g k2 hcore =>
      injection h with h'
      injection h' with hr hk
      exact ⟨cs, g, rfl, by rw [← hk]; exact hcore, hr.symm⟩
    · exact absurd h (by simp)
  · exact absurd h (by simp)

theorem hdr_block_no_nl {i : Nat} {g : List Char} (hd : Char.ofNat (48 + i) ≠ '\n')
    (hg : '\n' ∉ g) : ∀ d ∈ hOpen i ++ g ++ hClose i, d ≠ '\n' := by
  intro d hm he
  subst he
  rcases List.mem_append.mp hm with h0 | h0
  · rcases List.mem_append.mp h0 with h1 | h1
    · simp only [hOpen, List.mem_cons] at h1
      rcases h1 with h3 | h3 | h3 | h3
      · exact absurd h3 (by decide)
      · exact absurd h3 (by decide)
      · exact hd h3.symm
      · rcases h3 with h4 | h4
        · exact absurd h4 (by decide)
        · exact absurd h4 (List.not_mem_nil _)
    · exact hg h1
  · simp only [hClose, List.mem_cons] at h0
    rcases h0 with h3 | h3 | h3 | h3 | h3
    · exact absurd h3 (by decide)
    · exact absurd h3 (by decide)
    · exact absurd h3 (by decide)
    · exact hd h3.symm
    · rcases h3 with h4 | h4
      · exact absurd h4 (by decide)
      · exact absurd h4 (List.not_mem_nil _)

theorem lastNlInRun_head_lt (x : List Char) : lastNlInRun ('<' :: x) = none := rfl

theorem lastNlInRun_cons_nl (x : List Char) :
    lastNlInRun ('\n' :: x) =
      (match lastNlInRun x with
       | some k => some (k + 1)
       | none => some 0) := by
  simp [lastNlInRun, (by decide : pySpace '\n' = true)]

theorem tryParas_cons_nl (x : List Char) :
    tryParas ('\n' :: x) =
      (match lastNlInRun x with
       | some j => some ("</p>\n<p>".data, j + 1)
       | none => none) := rfl

theorem anyFire_cons_eq (t : List Char → Option (List Char × Nat)) (c : Char)
    (cs : List Char) :
    anyFire t (c :: cs) = ((t (c :: cs)).isSome || anyFire t cs) := rfl

theorem hdr_block_cons (i : Nat) (g Y : List Char) :
    (hOpen i ++ g ++ hClose i) ++ Y =
      '<' :: ('h' :: Char.ofNat (48 + i) :: '>' :: (g ++ (hClose i ++ Y))) := by
  simp [hOpen, List.append_assoc]

theorem lastNlInRun_scan_hdr (i : Nat) (hi : 1 ≤ i) :
    ∀ (f : Nat) (l : List Char), lastNlInRun (scan (tryHdrNl i) f l) = lastNlInRun l := by
  intro f
  induction f with
  | zero => intro l; rfl
  | succ f ih =>
    intro l
    cases l with
    | nil => rfl
    | cons c cs =>
      cases hf : tryHdrNl i (c :: cs) with
      | none =>
        simp only [scan, hf]
        by_cases hsp : pySpace c = true
        · simp [lastNlInRun, hsp, ih cs]
        · simp [lastNlInRun, hsp]
      | some rk =>
        obtain ⟨r, k⟩ := rk
        obtain ⟨cs', g, hx, hcore, hr⟩ := tryHdrNl_fire_inv hf
        injection hx with hc hcs
        subst hc hcs hr
        obtain ⟨z, rfl⟩ := (tryHdrCore_some_facts hi hcore).1
        simp only [scan, hf]
        rw [List.cons_append, lastNlInRun_cons_nl, hdr_block_cons,
          lastNlInRun_head_lt, lastNlInRun_cons_nl,
          show lastNlInRun ('#' :: z) = none from rfl]

theorem blanksep_scan_hdr (i : Nat) (hi : 1 ≤ i) (hd : Char.ofNat (48 + i) ≠ '\n') :
    ∀ (f : Nat) (l : List Char), anyFire tryParas l = false →
      anyFire tryParas (scan (tryHdrNl i) f l) = false := by
  intro f
  induction f with
  | zero => intro l h; exact h
  | succ f ih =>
    intro l h
    cases l with
    | nil => exact h
    | cons c cs =>
      obtain ⟨hp1, hp2⟩ := anyFire_cons_false h
      cases hf : tryHdrNl i (c :: cs) with
      | none =>
        simp only [scan, hf]
        have h2 := ih cs hp2
        by_cases hc : c = '\n'
        · subst hc
          have hln : lastNlInRun cs = none := by
            cases hln : lastNlInRun cs with
            | none => rfl
            | some j => simp [tryParas, hln] at hp1
          have hln2 : lastNlInRun (scan (tryHdrNl i) f cs) = none := by
            rw [lastNlInRun_scan_hdr i hi f cs, hln]
          simp [anyFire, tryParas, hln2, h2]
        · simp [anyFire, tryParas_nofire _ hc, h2]
      | some rk =>
        obtain ⟨r, k⟩ := rk
        obtain ⟨cs', g, hx, hcore, hr⟩ := tryHdrNl_fire_inv hf
        injection hx with hc hcs
        subst hc hcs hr
        have hgnl : '\n' ∉ g := (tryHdrCore_some_facts hi hcore).2
        have hBnl := hdr_block_no_nl hd hgnl
        simp only [scan, hf, List.cons_append]
        have hY := ih (cs.drop k) (anyFire_drop_false k hp2)
        have hB : anyFire tryParas ((hOpen i ++ g ++ hClose i) ++
            scan (tryHdrNl i) f (cs.drop k)) =
            anyFire tryParas (scan (tryHdrNl i) f (cs.drop k)) :=
          anyFire_append_none _ _ fun d hdm z => tryParas_nofire z (hBnl d hdm)
        rw [anyFire_cons_eq, hB, tryParas_cons_nl, hdr_block_cons,
          lastNlInRun_head_lt]
        simp [hY]

theorem blanksep_headersPass (i : Nat) (hi : 1 ≤ i) (hd : Char.ofNat (48 + i) ≠ '\n')
    {l : List Char} (h : anyFire tryParas l = false) :
    anyFire tryParas (headersPass i l) = false := by
  unfold headersPass
  cases hc : tryHdrCore i l with
  | none =>
    simp only [hc]
    exact blanksep_scan_hdr i hi hd l.length l h
  | some gk =>
    obtain ⟨g, k⟩ := gk
    simp only [hc]
    have hgnl : '\n' ∉ g := (tryHdrCore_some_facts hi hc).2
    have hBnl := hdr_block_no_nl hd hgnl
    rw [show hOpen i ++ g ++ hClose i ++ runScan (tryHdrNl i) (l.drop k) =
        (hOpen i ++ g ++ hClose i) ++ runScan (tryHdrNl i) (l.drop k) from rfl,
      anyFire_append_none _ _ fun d hdm z => tryParas_nofire z (hBnl d hdm)]
    exact blanksep_scan_hdr i hi hd (l.drop k).length (l.drop k)
      (anyFire_drop_false k h)

/-- C6 amended: the header, bold and italic rewriters introduce no new
blank-line separator (an input with no blank separator yields an output
with none).  The list rewriter does not share this property: its merge
sub-pass can delete a line's content and leave a blank line (see the
counterexample). -/
theorem stages_no_new_blanksep (s : String) (h : hasBlankSep s = false) :
    hasBlankSep (headers s) = false ∧ hasBlankSep (bold s) = false ∧
      hasBlankSep (italics s) = false := by
  have h' : anyFire tryParas s.data = false := h
  refine ⟨?_, ?_, ?_⟩
  · show anyFire tryParas (headers s).data = false
    unfold headers
    simp only [data_mk]
    exact blanksep_headersPass 1 (by omega) (by decide)
      (blanksep_headersPass 2 (by omega) (by decide)
        (blanksep_headersPass 3 (by omega) (by decide)
          (blanksep_headersPass 4 (by omega) (by decide)
            (blanksep_headersPass 5 (by omega) (by decide)
              (blanksep_headersPass 6 (by omega) (by decide) h')))))
  · show anyFire tryParas (bold s).data = false
    unfold bold
    simp only [data_mk]
    exact blanksep_scan_star (fun c cs hc => tryBold_nofire cs hc)
      (fun x r k hx => tryBold_fire_inv hx) s.data.length s.data h'
  · show anyFire tryParas (italics s).data = false
    unfold italics
    simp only [data_mk]
    exact blanksep_scan_star (fun c cs hc => tryItal_nofire cs hc)
      (fun x r k hx => tryItal_fire_inv hx) s.data.length s.data h'

/-- Witness for the amended C6 at `s = "# T\nno **blank** here"`. -/
theorem stages_no_new_blanksep_witness :
    hasBlankSep "# T\nno **blank** here" = false ∧
      (hasBlankSep (headers "# T\nno **blank** here") = false ∧
        hasBlankSep (bold "# T\nno **blank** here") = false ∧
        hasBlankSep (italics "# T\nno **blank** here") = false) :=
  ⟨by decide, stages_no_new_blanksep "# T\nno **blank** here" (by decide)⟩

/-- Witness for the amended C2 at `t = "foo "`, `r = "bar"`. -/
theorem lists_unanchored_witness :
    lists ("foo " ++ "- " ++ "bar") = "foo " ++ "<ul><li>" ++ "bar" ++ "</li></ul>" ∧
      lists ("foo " ++ "1. " ++ "bar") = "foo " ++ "<ol><li>" ++ "bar" ++ "</li></ol>" :=
  lists_unanchored "foo " "bar" (by decide) (by decide)

end MdToHtml
